import Mathlib

/-
Verification of the elevation-analysis pipeline (`processData` in
`src/components/ElevationAnalysis.js`).

The embedding models the pipeline over exact rationals:
- a raw CSV row is a `RawRecord`;
- the JS matching object (keyed by `distAlong.toFixed(3)`) is an
  insertion-ordered association list from the integer key
  `round (distAlong * 1000)` to a `MatchedPoint`; assigning to an existing
  key updates the entry in place, a new key is appended at the end, exactly
  as JS object property order behaves for non-index string keys;
- the stable JS `Array.prototype.sort` with comparator
  `(a, b) => a.distAlong - b.distAlong` is modelled by `List.insertionSort`
  on the `distAlong`-ordering, which is stable;
- the JS coercion `null -> 0` that arises in `row.elevation - elev2021`
  and in `point.diff + arr[index-1].diff` is modelled with `Option.getD 0`.

All functions are total structural recursions, matching the fact that the
JS pipeline never throws on any parsed record list.
-/

namespace Elev

/-- A raw survey record: one parsed CSV row with site, year, along-track
distance and elevation. -/
structure RawRecord where
  site : String
  year : Int
  distAlong : ℚ
  elevation : ℚ
deriving DecidableEq

/-- One entry of the matching table built by `processData`: the canonical
distance, the two optional elevations and the optional difference. -/
structure MatchedPoint where
  distAlong : ℚ
  elev2021 : Option ℚ
  elev2024 : Option ℚ
  diff : Option ℚ
deriving DecidableEq

/-- An entry of the per-site difference series. -/
structure DiffPoint where
  distAlong : ℚ
  difference : Option ℚ
deriving DecidableEq

/-- An entry of the per-site integral series. -/
structure IntPoint where
  distAlong : ℚ
  integral : ℚ
deriving DecidableEq

/-- The rounding key of a distance: `distAlong.toFixed(3)` identifies two
nonnegative distances exactly when they round to the same multiple of
`1/1000`, i.e. when `round (d * 1000) = ⌊d * 1000 + 1/2⌋` agrees.  The
definition computes that floor directly on the numerator and denominator
(`rkey_eq_floor` below proves the agreement). -/
def rkey (d : ℚ) : ℤ := (2000 * d.num + (d.den : ℤ)) / (2 * (d.den : ℤ))

/-- Comparator ordering used by the JS sorts on raw records. -/
def rrLE (a b : RawRecord) : Prop := a.distAlong ≤ b.distAlong

instance : DecidableRel rrLE :=
  fun a b => inferInstanceAs (Decidable (a.distAlong ≤ b.distAlong))

instance : IsTotal RawRecord rrLE := ⟨fun a b => le_total a.distAlong b.distAlong⟩

instance : IsTrans RawRecord rrLE := ⟨fun _ _ _ h h2 => le_trans h h2⟩

/-- Strict version of `rrLE`, used to identify sorted lists with no
duplicate distances. -/
def rrLT (a b : RawRecord) : Prop := a.distAlong < b.distAlong

instance : IsAntisymm RawRecord rrLT := ⟨fun _ _ h h2 => absurd (lt_trans h h2) (lt_irrefl _)⟩

/-- Comparator ordering used by the JS sort on matched points. -/
def mpLE (a b : MatchedPoint) : Prop := a.distAlong ≤ b.distAlong

instance : DecidableRel mpLE :=
  fun a b => inferInstanceAs (Decidable (a.distAlong ≤ b.distAlong))

instance : IsTotal MatchedPoint mpLE := ⟨fun a b => le_total a.distAlong b.distAlong⟩

instance : IsTrans MatchedPoint mpLE := ⟨fun _ _ _ h h2 => le_trans h h2⟩

/-- The JS matching object, as an insertion-ordered association list. -/
abbrev Table := List (Int × MatchedPoint)

/-- Property lookup `matchedPoints[roundedDist]`. -/
def lookupKey : Table → Int → Option MatchedPoint
  | [], _ => none
  | (k0, v) :: rest, k => if k0 = k then some v else lookupKey rest k

/-- Property assignment `matchedPoints[roundedDist] = v`: updates an
existing key in place, appends a fresh key at the end. -/
def setKey : Table → Int → MatchedPoint → Table
  | [], k, v => [(k, v)]
  | (k0, v0) :: rest, k, v =>
      if k0 = k then (k, v) :: rest else (k0, v0) :: setKey rest k v

/-- The matched-point entry created for an earlier-year record. -/
def mk21 (r : RawRecord) : MatchedPoint :=
  ⟨r.distAlong, some r.elevation, none, none⟩

/-- One step of the first (2021) loop of `processData`. -/
def insert2021 (t : Table) (row : RawRecord) : Table :=
  setKey t (rkey row.distAlong) (mk21 row)

/-- Effect of one later-year record on the entry currently stored at its
key: if an entry exists, set `elev2024` and recompute
`diff = row.elevation - elev2021` (JS coerces a `null` `elev2021` to `0`);
otherwise create a later-year-only entry. -/
def apply2024 (cur : Option MatchedPoint) (row : RawRecord) : MatchedPoint :=
  match cur with
  | some mp =>
      ⟨mp.distAlong, mp.elev2021, some row.elevation,
        some (row.elevation - mp.elev2021.getD 0)⟩
  | none => ⟨row.distAlong, none, some row.elevation, none⟩

/-- One step of the second (2024) loop of `processData`. -/
def insert2024 (t : Table) (row : RawRecord) : Table :=
  setKey t (rkey row.distAlong) (apply2024 (lookupKey t (rkey row.distAlong)) row)

/-- The table after the earlier-year loop. -/
def phase1 (rows : List RawRecord) : Table := rows.foldl insert2021 []

/-- The table after both loops of `processData`. -/
def buildTable (d21 d24 : List RawRecord) : Table :=
  d24.foldl insert2024 (phase1 d21)

/-- The filter `point.elev2021 !== null && point.elev2024 !== null`. -/
def passBoth (p : MatchedPoint) : Bool := p.elev2021.isSome && p.elev2024.isSome

/-- `Object.values(matchedPoints).filter(...).sort(...)`: the values of the
table in insertion order, filtered to points with both elevations, sorted
ascending by distance. -/
def matchedPointsArray (d21 d24 : List RawRecord) : List MatchedPoint :=
  List.insertionSort mpLE (((buildTable d21 d24).map Prod.snd).filter passBoth)

/-- The per-site difference series built from the matched array. -/
def diffSeries (pts : List MatchedPoint) : List DiffPoint :=
  pts.map (fun p => ⟨p.distAlong, p.diff⟩)

/-- The running-sum part of the integral `map`: `prev` is the previous
matched point and `sum` the running sum at `prev`. -/
def integrateFrom (prev : MatchedPoint) (sum : ℚ) : List MatchedPoint → List IntPoint
  | [] => []
  | p :: rest =>
      let s := sum + ((p.diff.getD 0 + prev.diff.getD 0) / 2) * (p.distAlong - prev.distAlong)
      ⟨p.distAlong, s⟩ :: integrateFrom p s rest

/-- The integral series: index 0 keeps the running sum at `0`, every later
index adds the trapezoid between it and its predecessor. -/
def integralSeries : List MatchedPoint → List IntPoint
  | [] => []
  | p :: rest => ⟨p.distAlong, 0⟩ :: integrateFrom p 0 rest

/-- The `(site, year)` group of the raw rows, in input order
(`_.groupBy(rawData, row => site_year)`). -/
def groupFor (rows : List RawRecord) (site : String) (year : Int) : List RawRecord :=
  rows.filter (fun r => decide (r.site = site ∧ r.year = year))

/-- The per-`(site, year)` profile: the group sorted by `distAlong` with
the stable JS sort. -/
def profileFor (rows : List RawRecord) (site : String) (year : Int) : List RawRecord :=
  List.insertionSort rrLE (groupFor rows site year)

/-- The matched array of a site, from the full raw record list. -/
def matchedFor (rows : List RawRecord) (site : String) : List MatchedPoint :=
  matchedPointsArray (profileFor rows site 2021) (profileFor rows site 2024)

/-- `differencesBySite[site]`. -/
def differencesBySite (rows : List RawRecord) (site : String) : List DiffPoint :=
  diffSeries (matchedFor rows site)

/-- `integralBySite[site]`. -/
def integralBySite (rows : List RawRecord) (site : String) : List IntPoint :=
  integralSeries (matchedFor rows site)

/-- The last record of a list whose distance rounds to the key `k`; this
is the record whose write wins in the key table. -/
def lastWithKey : List RawRecord → Int → Option RawRecord
  | [], _ => none
  | r :: rest, k =>
      match lastWithKey rest k with
      | some r2 => some r2
      | none => if rkey r.distAlong = k then some r else none

/-- Total accessor: the distance stored at index `i` of a matched list
(`0` out of bounds). -/
def distAt (pts : List MatchedPoint) (i : ℕ) : ℚ :=
  ((pts.get? i).map MatchedPoint.distAlong).getD 0

/-- Total accessor: the difference stored at index `i` of a matched list,
with the JS `null -> 0` coercion (`0` out of bounds). -/
def diffAt (pts : List MatchedPoint) (i : ℕ) : ℚ :=
  ((pts.get? i).map (fun p => p.diff.getD 0)).getD 0

/-- Total accessor: the integral value at index `i` (`0` out of bounds). -/
def integAt (l : List IntPoint) (i : ℕ) : ℚ :=
  ((l.get? i).map IntPoint.integral).getD 0

/-- Total accessor: the distance at index `i` of an integral series. -/
def idistAt (l : List IntPoint) (i : ℕ) : ℚ :=
  ((l.get? i).map IntPoint.distAlong).getD 0

/-- Total accessor: the distance at index `i` of a difference series. -/
def ddistAt (l : List DiffPoint) (i : ℕ) : ℚ :=
  ((l.get? i).map DiffPoint.distAlong).getD 0

/-- The worked example of the specification: site `AHA`, 2021 points
`(0,10), (1,12)` and 2024 points `(0,11), (1,11)`. -/
def rowsEx : List RawRecord :=
  [⟨"AHA", 2021, 0, 10⟩, ⟨"AHA", 2021, 1, 12⟩, ⟨"AHA", 2024, 0, 11⟩, ⟨"AHA", 2024, 1, 11⟩]

/-- The matched array arising from `rowsEx`. -/
def ptsEx : List MatchedPoint :=
  [⟨0, some 10, some 11, some 1⟩, ⟨1, some 12, some 11, some (-1)⟩]

/-- A three-point matched list with unit spacing and constant difference. -/
def ptsEx3 : List MatchedPoint :=
  [⟨0, some 5, some 7, some 2⟩, ⟨1, some 5, some 7, some 2⟩, ⟨2, some 5, some 7, some 2⟩]

/-- The effect of one later-year row on the optional entry at its key,
as an `Option`-level fold step. -/
def step24 (c : Option MatchedPoint) (r : RawRecord) : Option MatchedPoint :=
  some (apply2024 c r)

/-- A site surveyed only in 2021. -/
def rowsOnly21 : List RawRecord := [⟨"B", 2021, 0, 5⟩]

/-- Two same-site 2021 records whose distances share the rounding key `0`. -/
def collide1 : RawRecord := ⟨"A", 2021, 1/10000, 5⟩

/-- The second colliding 2021 record; its write wins. -/
def collide2 : RawRecord := ⟨"A", 2021, 0, 7⟩

/-- A one-entry table holding an earlier-year elevation at key `0`. -/
def tableEx : Table := [(0, ⟨0, some 10, none, none⟩)]

/-- First of two 2024 records colliding on key `0`. -/
def late1 : RawRecord := ⟨"A", 2024, 0, 11⟩

/-- Second of two 2024 records colliding on key `0`; its write wins. -/
def late2 : RawRecord := ⟨"A", 2024, 0, 13⟩

/-- A singleton earlier-year profile used to exercise the aligner. -/
def prof21Ex : List RawRecord := [⟨"A", 2021, 0, 10⟩]

/-- A singleton later-year profile matching `prof21Ex` at key `0`. -/
def prof24Ex : List RawRecord := [⟨"A", 2024, 0, 11⟩]

/-- Raw records with duplicate distances inside one `(site, year)` group:
a permutation of them changes the stably sorted profile. -/
def dupRowsA : List RawRecord := [⟨"A", 2021, 0, 10⟩, ⟨"A", 2021, 0, 20⟩]

/-- The transposition of `dupRowsA`. -/
def dupRowsB : List RawRecord := [⟨"A", 2021, 0, 20⟩, ⟨"A", 2021, 0, 10⟩]

/-- Raw records with pairwise distinct distances in every group. -/
def permRowsA : List RawRecord := [⟨"A", 2021, 0, 1⟩, ⟨"A", 2024, 1, 2⟩]

/-- A permutation of `permRowsA`. -/
def permRowsB : List RawRecord := [⟨"A", 2024, 1, 2⟩, ⟨"A", 2021, 0, 1⟩]

/-- The implemented key agrees with rounding the scaled distance half up:
`rkey d = ⌊d * 1000 + 1/2⌋ = round (d * 1000)`. -/
theorem rkey_eq_floor (d : ℚ) : rkey d = ⌊d * 1000 + 1 / 2⌋ := by
  have hd : ((d.den : ℚ)) ≠ 0 := by
    exact_mod_cast d.den_nz
  have h : (d * 1000 + 1 / 2 : ℚ) =
      ((2000 * d.num + (d.den : ℤ) : ℤ) : ℚ) / ((2 * d.den : ℕ) : ℚ) := by
    conv_lhs => rw [← Rat.num_div_den d]
    push_cast
    field_simp
    ring
  rw [h, Rat.floor_intCast_div_natCast, rkey]
  push_cast
  rfl

/-- The running-sum map preserves length. -/
theorem integrateFrom_length (pts : List MatchedPoint) :
    ∀ prev sum, (integrateFrom prev sum pts).length = pts.length := by
  induction pts with
  | nil => intro prev sum; rfl
  | cons p rest ih => intro prev sum; simp [integrateFrom, ih]

/-- The integral series has one entry per matched point. -/
theorem integralSeries_length (pts : List MatchedPoint) :
    (integralSeries pts).length = pts.length := by
  cases pts with
  | nil => rfl
  | cons p rest => simp [integralSeries, integrateFrom_length]

/-- The running-sum map keeps the distances of its input. -/
theorem integrateFrom_map_dist (pts : List MatchedPoint) :
    ∀ prev sum, (integrateFrom prev sum pts).map IntPoint.distAlong
      = pts.map MatchedPoint.distAlong := by
  induction pts with
  | nil => intro prev sum; rfl
  | cons p rest ih => intro prev sum; simp [integrateFrom, ih]

/-- The integral series keeps the distances of the matched array. -/
theorem integralSeries_map_dist (pts : List MatchedPoint) :
    (integralSeries pts).map IntPoint.distAlong = pts.map MatchedPoint.distAlong := by
  cases pts with
  | nil => rfl
  | cons p rest => simp [integralSeries, integrateFrom_map_dist]

/-- The difference series keeps the distances of the matched array. -/
theorem diffSeries_map_dist (pts : List MatchedPoint) :
    (diffSeries pts).map DiffPoint.distAlong = pts.map MatchedPoint.distAlong := by
  unfold diffSeries
  rw [List.map_map]
  rfl

/-- The first integral entry carries the first distance and the value `0`. -/
theorem integralSeries_get_zero (pts : List MatchedPoint) :
    (integralSeries pts).get? 0 = (pts.get? 0).map (fun p => IntPoint.mk p.distAlong 0) := by
  cases pts <;> rfl

/-- On a nonempty list the integral series coincides with the running-sum
map seeded with the head itself (whose first trapezoid is degenerate). -/
theorem integralSeries_eq_integrateFrom (p : MatchedPoint) (rest : List MatchedPoint) :
    integralSeries (p :: rest) = integrateFrom p 0 (p :: rest) := by
  simp [integralSeries, integrateFrom]

/-- Consecutive entries of the running-sum map differ by one trapezoid. -/
theorem integrateFrom_succ (pts : List MatchedPoint) :
    ∀ (prev : MatchedPoint) (sum : ℚ) (i : ℕ) (p q : MatchedPoint),
    pts.get? i = some p → pts.get? (i+1) = some q →
    ∃ P Q : IntPoint, (integrateFrom prev sum pts).get? i = some P ∧
      (integrateFrom prev sum pts).get? (i+1) = some Q ∧
      Q.integral = P.integral + ((q.diff.getD 0 + p.diff.getD 0) / 2) * (q.distAlong - p.distAlong) := by
  induction pts with
  | nil => intro prev sum i p q hp _; simp at hp
  | cons p0 rest ih =>
      intro prev sum i p q hp hq
      cases i with
      | zero =>
          have hp0 : p0 = p := by simpa using hp
          cases rest with
          | nil => simp at hq
          | cons q0 rest2 =>
              have hq0 : q0 = q := by simpa using hq
              subst hp0
              subst hq0
              exact ⟨_, _, rfl, rfl, rfl⟩
      | succ j =>
          have hp' : rest.get? j = some p := by simpa using hp
          have hq' : rest.get? (j+1) = some q := by simpa using hq
          obtain ⟨P, Q, h1, h2, h3⟩ := ih p0
            (sum + ((p0.diff.getD 0 + prev.diff.getD 0) / 2) * (p0.distAlong - prev.distAlong))
            j p q hp' hq'
          exact ⟨P, Q, h1, h2, h3⟩

/-- Recurrence of the integral series: each entry adds a trapezoid of the
difference values between consecutive distances. -/
theorem integral_step (pts : List MatchedPoint) (i : ℕ) (h : i + 1 < pts.length) :
    integAt (integralSeries pts) (i+1) =
      integAt (integralSeries pts) i +
        ((diffAt pts (i+1) + diffAt pts i) / 2) * (distAt pts (i+1) - distAt pts i) := by
  cases pts with
  | nil => simp at h
  | cons p0 rest =>
      have hi : i < (p0::rest).length := Nat.lt_of_succ_lt h
      obtain ⟨p, hp⟩ : ∃ x, (p0::rest).get? i = some x := by
        rw [List.get?_eq_get hi]; exact ⟨_, rfl⟩
      obtain ⟨q, hq⟩ : ∃ x, (p0::rest).get? (i+1) = some x := by
        rw [List.get?_eq_get h]; exact ⟨_, rfl⟩
      obtain ⟨P, Q, h1, h2, h3⟩ := integrateFrom_succ (p0::rest) p0 0 i p q hp hq
      rw [integralSeries_eq_integrateFrom]
      simp only [integAt, diffAt, distAt, h1, h2, hp, hq, Option.map_some', Option.getD_some]
      exact h3

/-- C1: the Integral Series is computed from the Difference Series by the
trapezoidal recurrence: the first entry carries integral `0`, every later
entry adds `((diff[i] + diff[i-1]) / 2) * (dist[i] - dist[i-1])`, the
computation is total by construction, and a step with `dx = 0` contributes
zero area. -/
theorem C1_trapezoidal_recurrence (pts : List MatchedPoint) :
    ((integralSeries pts).get? 0 = (pts.get? 0).map (fun p => IntPoint.mk p.distAlong 0)) ∧
    (∀ i : ℕ, i + 1 < pts.length →
      integAt (integralSeries pts) (i+1) =
        integAt (integralSeries pts) i +
          ((diffAt pts (i+1) + diffAt pts i) / 2) * (distAt pts (i+1) - distAt pts i)) ∧
    (∀ i : ℕ, i + 1 < pts.length → distAt pts (i+1) = distAt pts i →
      integAt (integralSeries pts) (i+1) = integAt (integralSeries pts) i) := by
  refine ⟨integralSeries_get_zero pts, fun i h => integral_step pts i h, fun i h hd => ?_⟩
  rw [integral_step pts i h, hd]
  ring

/-- Witness for C1 at the worked example of the specification, index 0. -/
theorem C1_witness :
    integAt (integralSeries ptsEx) 1 =
      integAt (integralSeries ptsEx) 0 +
        ((diffAt ptsEx 1 + diffAt ptsEx 0) / 2) * (distAt ptsEx 1 - distAt ptsEx 0) :=
  (C1_trapezoidal_recurrence ptsEx).2.1 0 (by decide)

/-- C5: the Integral Series has the same length as the Difference Series,
the same distance at every index, and value `0` at index 0 when nonempty. -/
theorem C5_integral_series_shape (rows : List RawRecord) (site : String) :
    (integralBySite rows site).length = (differencesBySite rows site).length ∧
    (∀ i : ℕ, idistAt (integralBySite rows site) i = ddistAt (differencesBySite rows site) i) ∧
    (differencesBySite rows site ≠ [] → integAt (integralBySite rows site) 0 = 0) := by
  refine ⟨?_, ?_, ?_⟩
  · rw [integralBySite, differencesBySite, integralSeries_length, diffSeries, List.length_map]
  · intro i
    unfold idistAt ddistAt integralBySite differencesBySite
    rw [← List.get?_map, ← List.get?_map, integralSeries_map_dist, diffSeries_map_dist]
  · intro h
    cases hpts : matchedFor rows site with
    | nil =>
        exfalso
        apply h
        rw [differencesBySite, hpts]
        rfl
    | cons p rest =>
        rw [integralBySite, hpts]
        rfl

/-- Witness for C5 at the worked example of the specification. -/
theorem C5_witness :
    (integralBySite rowsEx "AHA").length = (differencesBySite rowsEx "AHA").length ∧
    integAt (integralBySite rowsEx "AHA") 0 = 0 :=
  ⟨(C5_integral_series_shape rowsEx "AHA").1,
   (C5_integral_series_shape rowsEx "AHA").2.2 (by
      have h : differencesBySite rowsEx "AHA" = [⟨0, some 1⟩, ⟨1, some (-1)⟩] := by
        norm_num [differencesBySite, matchedFor, diffSeries, matchedPointsArray, buildTable,
          phase1, insert2021, insert2024, apply2024, mk21, setKey, lookupKey, passBoth,
          groupFor, profileFor, rkey, List.insertionSort, List.orderedInsert, rrLE, mpLE]
      rw [h]
      exact List.cons_ne_nil _ _)⟩

/-- C6: with uniform spacing `dx` and constant difference `c` the integral
series satisfies the closed form `integral[i] = i * c * dx`. -/
theorem C6_closed_form (pts : List MatchedPoint) (dx c : ℚ)
    (hdx : ∀ i : ℕ, i + 1 < pts.length → distAt pts (i+1) - distAt pts i = dx)
    (hc : ∀ i : ℕ, i < pts.length → diffAt pts i = c) :
    ∀ i : ℕ, i < pts.length → integAt (integralSeries pts) i = (i : ℚ) * c * dx := by
  intro i
  induction i with
  | zero =>
      intro h0
      cases pts with
      | nil => simp at h0
      | cons p rest => simp [integralSeries, integAt]
  | succ j ihj =>
      intro hj
      have hj' : j < pts.length := Nat.lt_of_succ_lt hj
      rw [integral_step pts j hj, ihj hj', hc j hj', hc (j+1) hj, hdx j hj]
      push_cast
      ring

/-- Witness for C6: three points spaced by 1 with constant difference 2. -/
theorem C6_witness : integAt (integralSeries ptsEx3) 2 = ((2:ℕ) : ℚ) * 2 * 1 :=
  C6_closed_form ptsEx3 1 2
    (by
      intro i hi
      have h3 : i + 1 < 3 := by simpa [ptsEx3] using hi
      have h2 : i < 2 := by omega
      interval_cases i <;> norm_num [distAt, ptsEx3])
    (by
      intro i hi
      have h3 : i < 3 := by simpa [ptsEx3] using hi
      interval_cases i <;> norm_num [diffAt, ptsEx3])
    2 (by norm_num [ptsEx3])

/-- Lookup after assignment: the assigned key sees the new value, any other
key is unchanged. -/
theorem lookupKey_setKey (t : Table) (k k' : Int) (v : MatchedPoint) :
    lookupKey (setKey t k v) k' = if k = k' then some v else lookupKey t k' := by
  induction t with
  | nil => rfl
  | cons hd rest ih =>
      obtain ⟨k0, v0⟩ := hd
      by_cases h0 : k0 = k
      · subst h0
        simp only [setKey, if_pos rfl, lookupKey]
        by_cases h1 : k0 = k' <;> simp [h1]
      · simp only [setKey, if_neg h0, lookupKey]
        by_cases h1 : k0 = k'
        · have h2 : k ≠ k' := fun he => h0 (h1.trans he.symm)
          simp [h1, h2]
        · simp [h1, ih]

/-- Assignment only touches the assigned key: any entry of the new table
was an entry of the old one or is the assigned pair. -/
theorem mem_setKey {t : Table} {k : Int} {v : MatchedPoint} {p : Int × MatchedPoint}
    (h : p ∈ setKey t k v) : p ∈ t ∨ p = (k, v) := by
  induction t with
  | nil =>
      simp only [setKey] at h
      exact Or.inr (by simpa using h)
  | cons hd rest ih =>
      obtain ⟨k0, v0⟩ := hd
      by_cases h0 : k0 = k
      · subst h0
        simp only [setKey, if_pos rfl] at h
        rcases List.mem_cons.mp h with h | h
        · exact Or.inr h
        · exact Or.inl (List.mem_cons_of_mem _ h)
      · simp only [setKey, if_neg h0] at h
        rcases List.mem_cons.mp h with h | h
        · exact Or.inl (by rw [h]; exact List.mem_cons_self _ _)
        · rcases ih h with h2 | h2
          · exact Or.inl (List.mem_cons_of_mem _ h2)
          · exact Or.inr h2

/-- The key sequence after an assignment: unchanged if the key was present,
extended by the key at the end otherwise. -/
theorem fst_setKey (t : Table) (k : Int) (v : MatchedPoint) :
    (setKey t k v).map Prod.fst =
      if k ∈ t.map Prod.fst then t.map Prod.fst else t.map Prod.fst ++ [k] := by
  induction t with
  | nil => simp [setKey]
  | cons hd rest ih =>
      obtain ⟨k0, v0⟩ := hd
      by_cases h0 : k0 = k
      · subst h0
        simp [setKey]
      · have h0' : ¬ k = k0 := fun he => h0 he.symm
        simp only [setKey, if_neg h0, List.map_cons, ih]
        by_cases h1 : k ∈ rest.map Prod.fst
        · simp [h1, h0']
        · simp [h1, h0']

/-- Assignment preserves distinctness of the stored keys. -/
theorem keysND_setKey {t : Table} (hnd : (t.map Prod.fst).Nodup) (k : Int) (v : MatchedPoint) :
    ((setKey t k v).map Prod.fst).Nodup := by
  rw [fst_setKey]
  split_ifs with h1
  · exact hnd
  · simp [List.nodup_append, hnd, h1]

/-- A successful lookup exhibits a table entry. -/
theorem mem_of_lookupKey {t : Table} {k : Int} {v : MatchedPoint}
    (h : lookupKey t k = some v) : (k, v) ∈ t := by
  induction t with
  | nil => simp [lookupKey] at h
  | cons hd rest ih =>
      obtain ⟨k0, v0⟩ := hd
      by_cases h0 : k0 = k
      · subst h0
        rw [lookupKey, if_pos rfl] at h
        injection h with h
        subst h
        exact List.mem_cons_self _ _
      · rw [lookupKey, if_neg h0] at h
        exact List.mem_cons_of_mem _ (ih h)

/-- With distinct keys a table entry is found by lookup. -/
theorem lookupKey_of_mem {t : Table} (hnd : (t.map Prod.fst).Nodup) {k : Int} {v : MatchedPoint}
    (h : (k, v) ∈ t) : lookupKey t k = some v := by
  induction t with
  | nil => simp at h
  | cons hd rest ih =>
      obtain ⟨k0, v0⟩ := hd
      rw [List.map_cons, List.nodup_cons] at hnd
      rcases List.mem_cons.mp h with h | h
      · injection h with h1 h2
        subst h1
        subst h2
        simp [lookupKey]
      · have hk : ¬ k0 = k := by
          intro he
          subst he
          exact hnd.1 (List.mem_map.mpr ⟨(k0, v), h, rfl⟩)
        rw [lookupKey, if_neg hk]
        exact ih hnd.2 h

/-- An invariant preserved by every fold step holds of the fold. -/
theorem foldl_preserves {α σ : Type} (f : σ → α → σ) (P : σ → Prop)
    (hstep : ∀ s a, P s → P (f s a)) :
    ∀ (l : List α) (s : σ), P s → P (l.foldl f s) := by
  intro l
  induction l with
  | nil => intro s hs; exact hs
  | cons a rest ih => intro s hs; exact ih (f s a) (hstep s a hs)

/-- The last record with a given key belongs to the list and has that key. -/
theorem lastWithKey_some {rows : List RawRecord} {k : Int} {r : RawRecord}
    (h : lastWithKey rows k = some r) : r ∈ rows ∧ rkey r.distAlong = k := by
  induction rows with
  | nil => simp [lastWithKey] at h
  | cons r0 rest ih =>
      rw [lastWithKey] at h
      cases h2 : lastWithKey rest k with
      | some r2 =>
          rw [h2] at h
          injection h with h
          subst h
          obtain ⟨hm, hk⟩ := ih h2
          exact ⟨List.mem_cons_of_mem _ hm, hk⟩
      | none =>
          rw [h2] at h
          by_cases hc : rkey r0.distAlong = k
          · rw [if_pos hc] at h
            injection h with h
            subst h
            exact ⟨List.mem_cons_self _ _, hc⟩
          · rw [if_neg hc] at h
            exact absurd h (by simp)

/-- No last record with a key exists exactly when no record has the key. -/
theorem lastWithKey_none_iff (rows : List RawRecord) (k : Int) :
    lastWithKey rows k = none ↔ ∀ r ∈ rows, rkey r.distAlong ≠ k := by
  induction rows with
  | nil => simp [lastWithKey]
  | cons r0 rest ih =>
      rw [lastWithKey]
      cases h2 : lastWithKey rest k with
      | some r2 =>
          constructor
          · intro h; exact absurd h (by simp)
          · intro hall
            obtain ⟨hm, hk⟩ := lastWithKey_some h2
            exact absurd hk (hall r2 (List.mem_cons_of_mem _ hm))
      | none =>
          have hrest : ∀ r ∈ rest, rkey r.distAlong ≠ k := ih.mp h2
          by_cases hc : rkey r0.distAlong = k
          · rw [if_pos hc]
            constructor
            · intro h; exact absurd h (by simp)
            · intro hall; exact absurd hc (hall r0 (List.mem_cons_self _ _))
          · rw [if_neg hc]
            constructor
            · intro _ r hr
              rcases List.mem_cons.mp hr with h | h
              · rw [h]; exact hc
              · exact hrest r h
            · intro _; rfl

/-- Some record carries the key exactly when a last one does. -/
theorem lastWithKey_mem_iff (rows : List RawRecord) (k : Int) :
    (∃ r, lastWithKey rows k = some r) ↔ ∃ r ∈ rows, rkey r.distAlong = k := by
  constructor
  · rintro ⟨r, hr⟩
    obtain ⟨hm, hk⟩ := lastWithKey_some hr
    exact ⟨r, hm, hk⟩
  · rintro ⟨r, hm, hk⟩
    cases h : lastWithKey rows k with
    | some r2 => exact ⟨r2, rfl⟩
    | none => exact absurd hk ((lastWithKey_none_iff rows k).mp h r hm)

/-- The last record with a key over an append comes from the second list
when possible, from the first one otherwise. -/
theorem lastWithKey_append (l1 l2 : List RawRecord) (k : Int) :
    lastWithKey (l1 ++ l2) k =
      match lastWithKey l2 k with
      | some r => some r
      | none => lastWithKey l1 k := by
  induction l1 with
  | nil =>
      simp only [List.nil_append]
      cases h : lastWithKey l2 k <;> rfl
  | cons r0 rest ih =>
      rw [List.cons_append, lastWithKey, ih, lastWithKey]
      cases h : lastWithKey l2 k <;> rfl

/-- The last record with a key is the last element of the key's filter. -/
theorem lastWithKey_eq_filter (rows : List RawRecord) (k : Int) :
    lastWithKey rows k = (rows.filter (fun r => decide (rkey r.distAlong = k))).getLast? := by
  induction rows with
  | nil => rfl
  | cons r0 rest ih =>
      rw [lastWithKey, List.filter_cons]
      by_cases hc : rkey r0.distAlong = k
      · have hcb : decide (rkey r0.distAlong = k) = true := by simp [hc]
        rw [if_pos hcb]
        cases h2 : lastWithKey rest k with
        | some r2 =>
            rw [ih] at h2
            cases hf : rest.filter (fun r => decide (rkey r.distAlong = k)) with
            | nil => rw [hf] at h2; simp at h2
            | cons a l =>
                rw [hf] at h2
                rw [List.getLast?_cons_cons]
                exact h2.symm
        | none =>
            rw [ih] at h2
            have hf : rest.filter (fun r => decide (rkey r.distAlong = k)) = [] :=
              List.getLast?_eq_none_iff.mp h2
            show (if rkey r0.distAlong = k then some r0 else none) = _
            rw [if_pos hc, hf]
            rfl
      · have hcb : ¬ (decide (rkey r0.distAlong = k) = true) := by simp [hc]
        rw [if_neg hcb]
        cases h2 : lastWithKey rest k with
        | some r2 => rw [← ih, h2]
        | none =>
            show (if rkey r0.distAlong = k then some r0 else none) = _
            rw [if_neg hc, ← ih, h2]

/-- Lookup after the earlier-year loop: the last earlier-year record with
the key wins; keys never written fall through to the initial table. -/
theorem foldl_insert2021_lookup (rows : List RawRecord) :
    ∀ (t : Table) (k : Int),
    lookupKey (rows.foldl insert2021 t) k =
      match lastWithKey rows k with
      | some r => some (mk21 r)
      | none => lookupKey t k := by
  induction rows with
  | nil => intro t k; rfl
  | cons r0 rest ih =>
      intro t k
      rw [List.foldl_cons, ih, lastWithKey]
      cases h2 : lastWithKey rest k with
      | some r2 => rfl
      | none =>
          rw [insert2021, lookupKey_setKey]
          by_cases hc : rkey r0.distAlong = k
          · rw [if_pos hc, if_pos hc]
          · rw [if_neg hc, if_neg hc]

/-- Lookup after the later-year loop: the records with the key act, in
order, on the entry stored at the key. -/
theorem foldl_insert2024_lookup (rows : List RawRecord) :
    ∀ (t : Table) (k : Int),
    lookupKey (rows.foldl insert2024 t) k =
      (rows.filter (fun r => decide (rkey r.distAlong = k))).foldl step24 (lookupKey t k) := by
  induction rows with
  | nil => intro t k; rfl
  | cons r0 rest ih =>
      intro t k
      rw [List.foldl_cons, ih, List.filter_cons]
      by_cases hc : rkey r0.distAlong = k
      · rw [if_pos (by simpa using hc), List.foldl_cons]
        congr 1
        rw [insert2024, lookupKey_setKey, hc, if_pos rfl]
        rfl
      · rw [if_neg (by simpa using hc)]
        congr 1
        rw [insert2024, lookupKey_setKey, if_neg hc]

/-- Later-year writes keep the canonical distance and the earlier-year
elevation of an existing entry. -/
theorem step24_foldl_pres (l : List RawRecord) :
    ∀ (mp : MatchedPoint), ∃ mp2, l.foldl step24 (some mp) = some mp2 ∧
      mp2.elev2021 = mp.elev2021 ∧ mp2.distAlong = mp.distAlong := by
  induction l with
  | nil => intro mp; exact ⟨mp, rfl, rfl, rfl⟩
  | cons r rest ih =>
      intro mp
      obtain ⟨mp2, h, h1, h2⟩ := ih (apply2024 (some mp) r)
      exact ⟨mp2, h, h1, h2⟩

/-- A fold over a list ending in `r` is the action of `r` on the prefix fold. -/
theorem step24_foldl_concat (l : List RawRecord) (r : RawRecord) (c : Option MatchedPoint) :
    (l ++ [r]).foldl step24 c = some (apply2024 (l.foldl step24 c) r) := by
  rw [List.foldl_append]
  rfl

/-- The earlier-year elevation of a fold result comes from the start. -/
theorem step24_foldl_elev2021 (l : List RawRecord) :
    ∀ (c : Option MatchedPoint) (mp : MatchedPoint),
    l.foldl step24 c = some mp → mp.elev2021 = c.bind MatchedPoint.elev2021 := by
  induction l with
  | nil =>
      intro c mp h
      rw [List.foldl_nil] at h
      subst h
      rfl
  | cons r rest ih =>
      intro c mp h
      have h2 := ih (step24 c r) mp h
      rw [h2]
      cases c with
      | none => rfl
      | some m => rfl

/-- A fold result with a later-year elevation came from at least one
later-year record when the start had none. -/
theorem step24_foldl_ne_nil (l : List RawRecord) (c : Option MatchedPoint) (mp : MatchedPoint)
    (h : l.foldl step24 c = some mp) (h0 : ∀ m, c = some m → m.elev2024 = none)
    (hs : mp.elev2024.isSome = true) : l ≠ [] := by
  intro hnil
  subst hnil
  rw [List.foldl_nil] at h
  subst h
  rw [h0 mp rfl] at hs
  simp at hs

/-- Folding the later-year records onto an entry with an earlier-year
elevation: the final entry keeps distance and earlier elevation, stores the
last record's elevation, and recomputes the difference from it. -/
theorem step24_foldl_last (l : List RawRecord) (r : RawRecord) (mp : MatchedPoint) (e : ℚ)
    (he : mp.elev2021 = some e) :
    (l ++ [r]).foldl step24 (some mp) =
      some ⟨mp.distAlong, some e, some r.elevation, some (r.elevation - e)⟩ := by
  rw [step24_foldl_concat]
  obtain ⟨mp2, h, h1, h2⟩ := step24_foldl_pres l mp
  rw [h]
  simp [apply2024, h1, h2, he]

/-- Lookup in the full matching table, by cases on the two loops. -/
theorem lookup_buildTable (d21 d24 : List RawRecord) (k : Int) :
    lookupKey (buildTable d21 d24) k =
      (d24.filter (fun r => decide (rkey r.distAlong = k))).foldl step24
        (match lastWithKey d21 k with
         | some r => some (mk21 r)
         | none => none) := by
  rw [buildTable, foldl_insert2024_lookup, phase1, foldl_insert2021_lookup]
  cases lastWithKey d21 k <;> rfl

/-- A key present in both years stores the last-winning earlier distance
and elevation, the last-winning later elevation, and their difference. -/
theorem lookup_buildTable_both {d21 d24 : List RawRecord} {k : Int} {r21 r24 : RawRecord}
    (h21 : lastWithKey d21 k = some r21) (h24 : lastWithKey d24 k = some r24) :
    lookupKey (buildTable d21 d24) k =
      some ⟨r21.distAlong, some r21.elevation, some r24.elevation,
        some (r24.elevation - r21.elevation)⟩ := by
  rw [lookup_buildTable, h21]
  have hlast : (d24.filter (fun r => decide (rkey r.distAlong = k))).getLast? = some r24 := by
    rw [← lastWithKey_eq_filter]
    exact h24
  obtain ⟨L, hL⟩ : ∃ L, d24.filter (fun r => decide (rkey r.distAlong = k)) = L ++ [r24] := by
    rcases List.eq_nil_or_concat (d24.filter (fun r => decide (rkey r.distAlong = k))) with hfe | ⟨L, b, hfe⟩
    · rw [hfe] at hlast; simp at hlast
    · rw [List.concat_eq_append] at hfe
      rw [hfe, List.getLast?_concat] at hlast
      injection hlast with hb
      subst hb
      exact ⟨L, hfe⟩
  rw [hL, step24_foldl_last L r24 (mk21 r21) r21.elevation rfl]
  rfl

/-- A key present only in the earlier year keeps its phase-one entry. -/
theorem lookup_buildTable_onlyEarly {d21 d24 : List RawRecord} {k : Int} {r21 : RawRecord}
    (h21 : lastWithKey d21 k = some r21) (h24 : lastWithKey d24 k = none) :
    lookupKey (buildTable d21 d24) k = some (mk21 r21) := by
  rw [lookup_buildTable, h21]
  have hf : d24.filter (fun r => decide (rkey r.distAlong = k)) = [] := by
    rw [List.filter_eq_nil_iff]
    intro r hr
    simpa using (lastWithKey_none_iff d24 k).mp h24 r hr
  rw [hf]
  rfl

/-- A key absent from the earlier year never gains an earlier elevation. -/
theorem lookup_buildTable_onlyLate {d21 d24 : List RawRecord} {k : Int}
    (h21 : lastWithKey d21 k = none) :
    ∀ mp, lookupKey (buildTable d21 d24) k = some mp → mp.elev2021 = none := by
  intro mp h
  rw [lookup_buildTable, h21] at h
  simpa using step24_foldl_elev2021 _ _ _ h

/-- A key absent from both years is absent from the table. -/
theorem lookup_buildTable_none {d21 d24 : List RawRecord} {k : Int}
    (h21 : lastWithKey d21 k = none) (h24 : lastWithKey d24 k = none) :
    lookupKey (buildTable d21 d24) k = none := by
  rw [lookup_buildTable, h21]
  have hf : d24.filter (fun r => decide (rkey r.distAlong = k)) = [] := by
    rw [List.filter_eq_nil_iff]
    intro r hr
    simpa using (lastWithKey_none_iff d24 k).mp h24 r hr
  rw [hf]
  rfl

/-- The matching table has pairwise distinct keys, and every entry is
stored under the key of its own distance. -/
theorem buildTable_inv (d21 d24 : List RawRecord) :
    ((buildTable d21 d24).map Prod.fst).Nodup ∧
      ∀ p ∈ buildTable d21 d24, rkey p.2.distAlong = p.1 := by
  have base : (([] : Table).map Prod.fst).Nodup ∧
      ∀ p ∈ ([] : Table), rkey p.2.distAlong = p.1 := by
    refine ⟨List.nodup_nil, ?_⟩
    intro p hp
    simp at hp
  have step1 : ∀ (t : Table) (r : RawRecord),
      ((t.map Prod.fst).Nodup ∧ ∀ p ∈ t, rkey p.2.distAlong = p.1) →
      (((insert2021 t r).map Prod.fst).Nodup ∧
        ∀ p ∈ insert2021 t r, rkey p.2.distAlong = p.1) := by
    rintro t r ⟨hnd, hok⟩
    refine ⟨keysND_setKey hnd _ _, ?_⟩
    intro p hp
    rcases mem_setKey hp with h | h
    · exact hok p h
    · rw [h]
      rfl
  have step2 : ∀ (t : Table) (r : RawRecord),
      ((t.map Prod.fst).Nodup ∧ ∀ p ∈ t, rkey p.2.distAlong = p.1) →
      (((insert2024 t r).map Prod.fst).Nodup ∧
        ∀ p ∈ insert2024 t r, rkey p.2.distAlong = p.1) := by
    rintro t r ⟨hnd, hok⟩
    refine ⟨keysND_setKey hnd _ _, ?_⟩
    intro p hp
    rcases mem_setKey hp with h | h
    · exact hok p h
    · rw [h]
      show rkey (apply2024 (lookupKey t (rkey r.distAlong)) r).distAlong = rkey r.distAlong
      cases hl : lookupKey t (rkey r.distAlong) with
      | none => rfl
      | some m =>
          have hm := hok _ (mem_of_lookupKey hl)
          simpa [apply2024] using hm
  rw [buildTable, phase1]
  exact foldl_preserves insert2024 _ step2 d24 _ (foldl_preserves insert2021 _ step1 d21 _ base)

/-- The stored distances of the table values are pairwise distinct. -/
theorem buildTable_dist_nodup (d21 d24 : List RawRecord) :
    (((buildTable d21 d24).map Prod.snd).map MatchedPoint.distAlong).Nodup := by
  obtain ⟨hnd, hok⟩ := buildTable_inv d21 d24
  rw [List.map_map]
  apply List.Nodup.of_map rkey
  rw [List.map_map]
  have h : (buildTable d21 d24).map (rkey ∘ MatchedPoint.distAlong ∘ Prod.snd) =
      (buildTable d21 d24).map Prod.fst :=
    List.map_congr_left (fun p hp => hok p hp)
  rw [h]
  exact hnd

/-- The keys of the table values are pairwise distinct. -/
theorem buildTable_key_nodup (d21 d24 : List RawRecord) :
    (((buildTable d21 d24).map Prod.snd).map (fun m => rkey m.distAlong)).Nodup := by
  obtain ⟨hnd, hok⟩ := buildTable_inv d21 d24
  rw [List.map_map]
  have h : (buildTable d21 d24).map ((fun m => rkey m.distAlong) ∘ Prod.snd) =
      (buildTable d21 d24).map Prod.fst :=
    List.map_congr_left (fun p hp => hok p hp)
  rw [h]
  exact hnd

/-- Membership in the matched array, through the table: the entry is
stored at the key of its own distance and passes the both-years filter. -/
theorem mem_matchedArr_iff (d21 d24 : List RawRecord) (mp : MatchedPoint) :
    mp ∈ matchedPointsArray d21 d24 ↔
      (lookupKey (buildTable d21 d24) (rkey mp.distAlong) = some mp ∧ passBoth mp = true) := by
  obtain ⟨hnd, hok⟩ := buildTable_inv d21 d24
  rw [matchedPointsArray, List.mem_insertionSort, List.mem_filter]
  constructor
  · rintro ⟨hm, hpass⟩
    refine ⟨?_, hpass⟩
    obtain ⟨p, hp, hsnd⟩ := List.mem_map.mp hm
    have hkey : p.1 = rkey mp.distAlong := by rw [← hsnd]; exact (hok p hp).symm
    have h3 : (p.1, p.2) ∈ buildTable d21 d24 := hp
    rw [hkey, hsnd] at h3
    exact lookupKey_of_mem hnd h3
  · rintro ⟨hl, hpass⟩
    exact ⟨List.mem_map.mpr ⟨(rkey mp.distAlong, mp), mem_of_lookupKey hl, rfl⟩, hpass⟩

/-- The matched array is sorted by distance. -/
theorem matchedArr_sorted (d21 d24 : List RawRecord) :
    List.Sorted mpLE (matchedPointsArray d21 d24) :=
  List.sorted_insertionSort mpLE _

/-- The matched array has pairwise distinct distances. -/
theorem matchedArr_dist_nodup (d21 d24 : List RawRecord) :
    ((matchedPointsArray d21 d24).map MatchedPoint.distAlong).Nodup := by
  have hperm : (matchedPointsArray d21 d24).Perm
      (((buildTable d21 d24).map Prod.snd).filter passBoth) :=
    List.perm_insertionSort mpLE _
  have hsub : List.Sublist
      ((((buildTable d21 d24).map Prod.snd).filter passBoth).map MatchedPoint.distAlong)
      (((buildTable d21 d24).map Prod.snd).map MatchedPoint.distAlong) :=
    List.Sublist.map _ (List.filter_sublist _)
  exact ((hperm.map MatchedPoint.distAlong).nodup_iff).mpr
    (List.Nodup.sublist hsub (buildTable_dist_nodup d21 d24))

/-- The matched array has pairwise distinct keys. -/
theorem matchedArr_key_nodup (d21 d24 : List RawRecord) :
    ((matchedPointsArray d21 d24).map (fun m => rkey m.distAlong)).Nodup := by
  have hperm : (matchedPointsArray d21 d24).Perm
      (((buildTable d21 d24).map Prod.snd).filter passBoth) :=
    List.perm_insertionSort mpLE _
  have hsub : List.Sublist
      ((((buildTable d21 d24).map Prod.snd).filter passBoth).map (fun m => rkey m.distAlong))
      (((buildTable d21 d24).map Prod.snd).map (fun m => rkey m.distAlong)) :=
    List.Sublist.map _ (List.filter_sublist _)
  exact ((hperm.map (fun m => rkey m.distAlong)).nodup_iff).mpr
    (List.Nodup.sublist hsub (buildTable_key_nodup d21 d24))

/-- The matched array is strictly increasing in distance. -/
theorem matchedArr_pairwise_lt (d21 d24 : List RawRecord) :
    (matchedPointsArray d21 d24).Pairwise (fun a b => a.distAlong < b.distAlong) := by
  have hs : (matchedPointsArray d21 d24).Pairwise mpLE := matchedArr_sorted d21 d24
  have hne : (matchedPointsArray d21 d24).Pairwise (fun a b => a.distAlong ≠ b.distAlong) := by
    have h := matchedArr_dist_nodup d21 d24
    rw [List.Nodup, List.pairwise_map] at h
    exact h
  exact (hs.and hne).imp (fun h => lt_of_le_of_ne h.1 h.2)

/-- A key is represented in the matched array exactly when it occurs in
both profiles. -/
theorem matchedArr_key_iff (d21 d24 : List RawRecord) (k : Int) :
    (∃ mp ∈ matchedPointsArray d21 d24, rkey mp.distAlong = k) ↔
      ((∃ r ∈ d21, rkey r.distAlong = k) ∧ (∃ r ∈ d24, rkey r.distAlong = k)) := by
  constructor
  · rintro ⟨mp, hm, hk⟩
    rw [mem_matchedArr_iff] at hm
    obtain ⟨hl, hpass⟩ := hm
    rw [hk] at hl
    cases h21 : lastWithKey d21 k with
    | none =>
        have h := lookup_buildTable_onlyLate h21 mp hl
        rw [passBoth, h] at hpass
        simp at hpass
    | some r21 =>
        cases h24 : lastWithKey d24 k with
        | none =>
            have h := lookup_buildTable_onlyEarly h21 h24
            rw [hl] at h
            injection h with h
            rw [passBoth, h] at hpass
            simp [mk21] at hpass
        | some r24 =>
            obtain ⟨hm1, hk1⟩ := lastWithKey_some h21
            obtain ⟨hm2, hk2⟩ := lastWithKey_some h24
            exact ⟨⟨r21, hm1, hk1⟩, ⟨r24, hm2, hk2⟩⟩
  · rintro ⟨⟨r1, hm1, hk1⟩, ⟨r2, hm2, hk2⟩⟩
    obtain ⟨r21, h21⟩ := (lastWithKey_mem_iff d21 k).mpr ⟨r1, hm1, hk1⟩
    obtain ⟨r24, h24⟩ := (lastWithKey_mem_iff d24 k).mpr ⟨r2, hm2, hk2⟩
    have hk21 := (lastWithKey_some h21).2
    refine ⟨⟨r21.distAlong, some r21.elevation, some r24.elevation,
      some (r24.elevation - r21.elevation)⟩, ?_, hk21⟩
    rw [mem_matchedArr_iff]
    refine ⟨?_, rfl⟩
    show lookupKey (buildTable d21 d24) (rkey r21.distAlong) = _
    rw [hk21]
    exact lookup_buildTable_both h21 h24

/-- Every matched-array entry is built from the last-winning records of
its key in the two profiles. -/
theorem mem_matchedArr_spec {d21 d24 : List RawRecord} {mp : MatchedPoint}
    (h : mp ∈ matchedPointsArray d21 d24) :
    ∃ r21 r24 : RawRecord, lastWithKey d21 (rkey mp.distAlong) = some r21 ∧
      lastWithKey d24 (rkey mp.distAlong) = some r24 ∧
      mp = ⟨r21.distAlong, some r21.elevation, some r24.elevation,
            some (r24.elevation - r21.elevation)⟩ := by
  rw [mem_matchedArr_iff] at h
  obtain ⟨hl, hpass⟩ := h
  cases h21 : lastWithKey d21 (rkey mp.distAlong) with
  | none =>
      have h := lookup_buildTable_onlyLate h21 mp hl
      rw [passBoth, h] at hpass
      simp at hpass
  | some r21 =>
      cases h24 : lastWithKey d24 (rkey mp.distAlong) with
      | none =>
          have h := lookup_buildTable_onlyEarly h21 h24
          rw [hl] at h
          injection h with h
          rw [passBoth, h] at hpass
          simp [mk21] at hpass
      | some r24 =>
          refine ⟨r21, r24, rfl, rfl, ?_⟩
          have h := lookup_buildTable_both h21 h24
          rw [hl] at h
          exact Option.some.inj h

/-- C2: the Difference Series is sorted ascending by distance, holds
exactly one entry per rounding key occurring in both profiles (points in
only one year are excluded), and each entry's difference is the later-year
elevation minus the earlier-year elevation stored at that key. -/
theorem C2_difference_series (rows : List RawRecord) (site : String) :
    (differencesBySite rows site).Pairwise (fun a b => a.distAlong ≤ b.distAlong) ∧
    ((differencesBySite rows site).map (fun p => rkey p.distAlong)).Nodup ∧
    (∀ k : Int, (∃ p ∈ differencesBySite rows site, rkey p.distAlong = k) ↔
        ((∃ r ∈ profileFor rows site 2021, rkey r.distAlong = k) ∧
         (∃ r ∈ profileFor rows site 2024, rkey r.distAlong = k))) ∧
    (∀ p ∈ differencesBySite rows site, ∃ r21 r24 : RawRecord,
        lastWithKey (profileFor rows site 2021) (rkey p.distAlong) = some r21 ∧
        lastWithKey (profileFor rows site 2024) (rkey p.distAlong) = some r24 ∧
        p.difference = some (r24.elevation - r21.elevation)) := by
  refine ⟨?_, ?_, ?_, ?_⟩
  · have hs := matchedArr_sorted (profileFor rows site 2021) (profileFor rows site 2024)
    rw [differencesBySite, diffSeries, List.pairwise_map]
    exact hs
  · have h := matchedArr_key_nodup (profileFor rows site 2021) (profileFor rows site 2024)
    rw [differencesBySite, diffSeries, List.map_map]
    exact h
  · intro k
    rw [← matchedArr_key_iff (profileFor rows site 2021) (profileFor rows site 2024) k]
    constructor
    · rintro ⟨p, hp, hk⟩
      rw [differencesBySite, diffSeries] at hp
      obtain ⟨mp, hmp, hmpe⟩ := List.mem_map.mp hp
      refine ⟨mp, hmp, ?_⟩
      rw [← hk, ← hmpe]
    · rintro ⟨mp, hmp, hk⟩
      refine ⟨⟨mp.distAlong, mp.diff⟩, ?_, hk⟩
      rw [differencesBySite, diffSeries]
      exact List.mem_map.mpr ⟨mp, hmp, rfl⟩
  · intro p hp
    rw [differencesBySite, diffSeries] at hp
    obtain ⟨mp, hmp, hmpe⟩ := List.mem_map.mp hp
    obtain ⟨r21, r24, h21, h24, hmpeq⟩ := mem_matchedArr_spec hmp
    refine ⟨r21, r24, ?_, ?_, ?_⟩
    · rw [← hmpe]
      exact h21
    · rw [← hmpe]
      exact h24
    · rw [← hmpe]
      show mp.diff = some (r24.elevation - r21.elevation)
      rw [hmpeq]

/-- Witness for C2: the spec's worked example, entry at distance 0. -/
theorem C2_witness :
    ∃ r21 r24 : RawRecord,
      lastWithKey (profileFor rowsEx "AHA" 2021) (rkey (DiffPoint.mk 0 (some 1)).distAlong) = some r21 ∧
      lastWithKey (profileFor rowsEx "AHA" 2024) (rkey (DiffPoint.mk 0 (some 1)).distAlong) = some r24 ∧
      (DiffPoint.mk 0 (some 1)).difference = some (r24.elevation - r21.elevation) :=
  (C2_difference_series rowsEx "AHA").2.2.2 ⟨0, some 1⟩ (by
    have h : differencesBySite rowsEx "AHA" = [⟨0, some 1⟩, ⟨1, some (-1)⟩] := by
      norm_num [differencesBySite, matchedFor, diffSeries, matchedPointsArray, buildTable,
        phase1, insert2021, insert2024, apply2024, mk21, setKey, lookupKey, passBoth,
        groupFor, profileFor, rkey, List.insertionSort, List.orderedInsert, rrLE, mpLE]
    rw [h]
    exact List.mem_cons_self _ _)

/-- C3: of two earlier-year records rounding to the same key, the one
iterated second silently overwrites the first in the key table; the loop
is total, so no error is raised. -/
theorem C3_last_write_wins (pre mid post : List RawRecord) (r1 r2 : RawRecord)
    (_hk : rkey r1.distAlong = rkey r2.distAlong)
    (hpost : ∀ r ∈ post, rkey r.distAlong ≠ rkey r2.distAlong) :
    lookupKey (phase1 (pre ++ r1 :: (mid ++ r2 :: post))) (rkey r2.distAlong) =
      some (mk21 r2) := by
  rw [phase1, foldl_insert2021_lookup]
  have h5 : lastWithKey post (rkey r2.distAlong) = none :=
    (lastWithKey_none_iff post _).mpr hpost
  have h4 : lastWithKey (r2 :: post) (rkey r2.distAlong) = some r2 := by
    rw [lastWithKey, h5, if_pos rfl]
  have h3 : lastWithKey (mid ++ r2 :: post) (rkey r2.distAlong) = some r2 := by
    rw [lastWithKey_append, h4]
  have h2 : lastWithKey (r1 :: (mid ++ r2 :: post)) (rkey r2.distAlong) = some r2 := by
    rw [lastWithKey, h3]
  have hlast : lastWithKey (pre ++ r1 :: (mid ++ r2 :: post)) (rkey r2.distAlong) = some r2 := by
    rw [lastWithKey_append, h2]
  rw [hlast]

/-- Witness for C3: two records `1/10000` and `0` apart share key 0. -/
theorem C3_witness :
    lookupKey (phase1 [collide1, collide2]) (rkey collide2.distAlong) = some (mk21 collide2) :=
  C3_last_write_wins [] [] [] collide1 collide2
    (by norm_num [collide1, collide2, rkey])
    (by simp)

/-- C8: for a key occurring in both years' profiles the stored distAlong
is the earlier-year last-winning record's value, the earlier elevation is
that record's, a later elevation is present, and the diff field is present
exactly when both elevations are. -/
theorem C8_canonical_distance (d21 d24 : List RawRecord) (k : Int) (r21 : RawRecord)
    (h21 : lastWithKey d21 k = some r21)
    (h24 : ∃ r ∈ d24, rkey r.distAlong = k) :
    ∃ mp : MatchedPoint, lookupKey (buildTable d21 d24) k = some mp ∧
      mp.distAlong = r21.distAlong ∧ mp.elev2021 = some r21.elevation ∧
      mp.elev2024.isSome = true ∧
      (mp.diff.isSome = true ↔ (mp.elev2021.isSome = true ∧ mp.elev2024.isSome = true)) := by
  obtain ⟨r24, h24'⟩ := (lastWithKey_mem_iff d24 k).mpr h24
  exact ⟨⟨r21.distAlong, some r21.elevation, some r24.elevation,
      some (r24.elevation - r21.elevation)⟩,
    lookup_buildTable_both h21 h24', rfl, rfl, rfl, by simp⟩

/-- Witness for C8 at two singleton profiles matching at key 0. -/
theorem C8_witness :
    ∃ mp : MatchedPoint, lookupKey (buildTable prof21Ex prof24Ex) 0 = some mp ∧
      mp.distAlong = (RawRecord.mk "A" 2021 0 10).distAlong ∧
      mp.elev2021 = some (RawRecord.mk "A" 2021 0 10).elevation ∧
      mp.elev2024.isSome = true ∧
      (mp.diff.isSome = true ↔ (mp.elev2021.isSome = true ∧ mp.elev2024.isSome = true)) :=
  C8_canonical_distance prof21Ex prof24Ex 0 ⟨"A", 2021, 0, 10⟩ (by decide) (by decide)

/-- C9: of two later-year records rounding to the same key, the second
overwrites the stored later elevation and the diff is recomputed from the
second record's elevation and the stored earlier elevation. -/
theorem C9_late_collision (t : Table) (k : Int) (mp : MatchedPoint) (e : ℚ)
    (pre mid post : List RawRecord) (s1 s2 : RawRecord)
    (hmp : lookupKey t k = some mp) (he : mp.elev2021 = some e)
    (h1 : rkey s1.distAlong = k) (h2 : rkey s2.distAlong = k)
    (hmid : ∀ r ∈ mid, rkey r.distAlong ≠ k) (hpost : ∀ r ∈ post, rkey r.distAlong ≠ k) :
    lookupKey ((pre ++ s1 :: (mid ++ s2 :: post)).foldl insert2024 t) k =
      some ⟨mp.distAlong, some e, some s2.elevation, some (s2.elevation - e)⟩ := by
  rw [foldl_insert2024_lookup, hmp]
  have hb1 : decide (rkey s1.distAlong = k) = true := by simp [h1]
  have hb2 : decide (rkey s2.distAlong = k) = true := by simp [h2]
  have hfmid : mid.filter (fun r => decide (rkey r.distAlong = k)) = [] := by
    rw [List.filter_eq_nil_iff]
    intro r hr
    simpa using hmid r hr
  have hfpost : post.filter (fun r => decide (rkey r.distAlong = k)) = [] := by
    rw [List.filter_eq_nil_iff]
    intro r hr
    simpa using hpost r hr
  have hfilter : (pre ++ s1 :: (mid ++ s2 :: post)).filter
        (fun r => decide (rkey r.distAlong = k)) =
      pre.filter (fun r => decide (rkey r.distAlong = k)) ++ [s1, s2] := by
    simp [List.filter_append, List.filter_cons, hb1, hb2, hfmid, hfpost]
  rw [hfilter]
  have hsplit : pre.filter (fun r => decide (rkey r.distAlong = k)) ++ [s1, s2] =
      (pre.filter (fun r => decide (rkey r.distAlong = k)) ++ [s1]) ++ [s2] := by
    simp
  rw [hsplit, List.foldl_append, List.foldl_append]
  obtain ⟨mp2, hfold, h1e, h2d⟩ :=
    step24_foldl_pres (pre.filter (fun r => decide (rkey r.distAlong = k))) mp
  rw [hfold]
  show some (apply2024 (some (apply2024 (some mp2) s1)) s2) = _
  simp [apply2024, h1e, h2d, he]

/-- Witness for C9: two 2024 rows at key 0 acting on a 2021 entry. -/
theorem C9_witness :
    lookupKey ([late1, late2].foldl insert2024 tableEx) 0 =
      some ⟨0, some 10, some 13, some 3⟩ := by
  have h := C9_late_collision tableEx 0 ⟨0, some 10, none, none⟩ 10 [] [] [] late1 late2
    rfl rfl (by decide) (by decide) (by simp) (by simp)
  exact h.trans (by norm_num [late2])

/-- C10: the distances of the Difference Series and the Integral Series
are pairwise distinct and strictly increasing, so every dx consumed by the
integrator is strictly positive. -/
theorem C10_strict_monotone (rows : List RawRecord) (site : String) :
    (differencesBySite rows site).Pairwise (fun a b => a.distAlong < b.distAlong) ∧
    (integralBySite rows site).Pairwise (fun a b => a.distAlong < b.distAlong) ∧
    (∀ i : ℕ, i + 1 < (differencesBySite rows site).length →
      0 < ddistAt (differencesBySite rows site) (i+1) -
          ddistAt (differencesBySite rows site) i) := by
  have hmap : (matchedFor rows site).Pairwise (fun a b => a.distAlong < b.distAlong) :=
    matchedArr_pairwise_lt (profileFor rows site 2021) (profileFor rows site 2024)
  have hd : (differencesBySite rows site).Pairwise (fun a b => a.distAlong < b.distAlong) := by
    rw [differencesBySite, diffSeries, List.pairwise_map]
    exact hmap
  have hi : (integralBySite rows site).Pairwise (fun a b => a.distAlong < b.distAlong) := by
    have h1 : ((integralBySite rows site).map IntPoint.distAlong).Pairwise (· < ·) := by
      rw [integralBySite, integralSeries_map_dist, List.pairwise_map]
      exact hmap
    rw [List.pairwise_map] at h1
    exact h1
  refine ⟨hd, hi, ?_⟩
  intro i h
  have h1 : i < (differencesBySite rows site).length := Nat.lt_of_succ_lt h
  have hlt := List.pairwise_iff_get.mp hd ⟨i, h1⟩ ⟨i + 1, h⟩ (Nat.lt_succ_self i)
  rw [ddistAt, ddistAt, List.get?_eq_get h, List.get?_eq_get h1]
  simp only [Option.map_some', Option.getD_some]
  exact sub_pos.mpr hlt

/-- Witness for C10 at the worked example: strictly increasing distances. -/
theorem C10_witness :
    (differencesBySite rowsEx "AHA").Pairwise (fun a b => a.distAlong < b.distAlong) ∧
    0 < ddistAt (differencesBySite rowsEx "AHA") 1 - ddistAt (differencesBySite rowsEx "AHA") 0 :=
  ⟨(C10_strict_monotone rowsEx "AHA").1,
   (C10_strict_monotone rowsEx "AHA").2.2 0 (by
      have h : differencesBySite rowsEx "AHA" = [⟨0, some 1⟩, ⟨1, some (-1)⟩] := by
        norm_num [differencesBySite, matchedFor, diffSeries, matchedPointsArray, buildTable,
          phase1, insert2021, insert2024, apply2024, mk21, setKey, lookupKey, passBoth,
          groupFor, profileFor, rkey, List.insertionSort, List.orderedInsert, rrLE, mpLE]
      rw [h]
      norm_num)⟩

/-- Entries written by the earlier-year loop never carry a later-year
elevation. -/
theorem phase1_elev2024_none (rows : List RawRecord) :
    ∀ p ∈ phase1 rows, p.2.elev2024 = none := by
  rw [phase1]
  refine foldl_preserves insert2021 (fun t => ∀ p ∈ t, p.2.elev2024 = none) ?_ rows [] ?_
  · intro t r hinv p hp
    rcases mem_setKey hp with h | h
    · exact hinv p h
    · rw [h]
      rfl
  · intro p hp
    simp at hp

/-- Entries of a table built from an empty earlier profile never carry an
earlier-year elevation. -/
theorem buildTable_nil_elev2021_none (d24 : List RawRecord) :
    ∀ p ∈ buildTable [] d24, p.2.elev2021 = none := by
  rw [buildTable]
  refine foldl_preserves insert2024 (fun t => ∀ p ∈ t, p.2.elev2021 = none) ?_ d24 (phase1 []) ?_
  · intro t r hinv p hp
    rcases mem_setKey hp with h | h
    · exact hinv p h
    · rw [h]
      show (apply2024 (lookupKey t (rkey r.distAlong)) r).elev2021 = none
      cases hl : lookupKey t (rkey r.distAlong) with
      | none => rfl
      | some m =>
          have hm := hinv _ (mem_of_lookupKey hl)
          simpa [apply2024] using hm
  · intro p hp
    simp [phase1] at hp

/-- C4: a site with records in only one survey year yields an empty
profile for the missing year, the present year's full sorted group as its
profile, and empty Difference and Integral Series; nothing fails. -/
theorem C4_single_year (rows : List RawRecord) (site : String) (y missing : Int)
    (hy : (y = 2021 ∧ missing = 2024) ∨ (y = 2024 ∧ missing = 2021))
    (habsent : ∀ r ∈ rows, r.site = site → r.year ≠ missing) :
    profileFor rows site missing = [] ∧
    (∀ r : RawRecord, r ∈ profileFor rows site y ↔ (r ∈ rows ∧ r.site = site ∧ r.year = y)) ∧
    differencesBySite rows site = [] ∧
    integralBySite rows site = [] := by
  have hempty : groupFor rows site missing = [] := by
    rw [groupFor, List.filter_eq_nil_iff]
    intro r hr
    simp only [decide_eq_true_eq]
    rintro ⟨hs, hy2⟩
    exact habsent r hr hs hy2
  have hprof : profileFor rows site missing = [] := by
    rw [profileFor, hempty]
    rfl
  have hmem : ∀ r : RawRecord, r ∈ profileFor rows site y ↔
      (r ∈ rows ∧ r.site = site ∧ r.year = y) := by
    intro r
    rw [profileFor, List.mem_insertionSort, groupFor, List.mem_filter]
    simp [decide_eq_true_eq]
  have harr : matchedFor rows site = [] := by
    rw [matchedFor]
    rcases hy with ⟨hy1, hy2⟩ | ⟨hy1, hy2⟩
    · subst hy2
      have hfilter : (((buildTable (profileFor rows site 2021)
            (profileFor rows site 2024)).map Prod.snd).filter passBoth) = [] := by
        rw [List.filter_eq_nil_iff]
        intro m hm
        obtain ⟨p, hp, he⟩ := List.mem_map.mp hm
        have hnone : p.2.elev2024 = none := by
          have hT : buildTable (profileFor rows site 2021) (profileFor rows site 2024) =
              phase1 (profileFor rows site 2021) := by
            rw [hprof, buildTable]
            rfl
          rw [hT] at hp
          exact phase1_elev2024_none _ p hp
        rw [passBoth, ← he, hnone]
        simp
      rw [matchedPointsArray, hfilter]
      rfl
    · subst hy2
      have hfilter : (((buildTable (profileFor rows site 2021)
            (profileFor rows site 2024)).map Prod.snd).filter passBoth) = [] := by
        rw [List.filter_eq_nil_iff]
        intro m hm
        obtain ⟨p, hp, he⟩ := List.mem_map.mp hm
        have hnone : p.2.elev2021 = none := by
          rw [hprof] at hp
          exact buildTable_nil_elev2021_none _ p hp
        rw [passBoth, ← he, hnone]
        simp
      rw [matchedPointsArray, hfilter]
      rfl
  refine ⟨hprof, hmem, ?_, ?_⟩
  · rw [differencesBySite, harr]
    rfl
  · rw [integralBySite, harr]
    rfl

/-- Witness for C4: a site present only in 2021. -/
theorem C4_witness :
    profileFor rowsOnly21 "B" 2024 = [] ∧ differencesBySite rowsOnly21 "B" = [] ∧
      integralBySite rowsOnly21 "B" = [] := by
  have h := C4_single_year rowsOnly21 "B" 2021 2024 (Or.inl ⟨rfl, rfl⟩) (by decide)
  exact ⟨h.1, h.2.2.1, h.2.2.2⟩

/-- Permutations of a list with pairwise distinct distances have the same
stable sort. -/
theorem insertionSort_eq_of_perm {l1 l2 : List RawRecord} (hp : l1.Perm l2)
    (hnd : (l1.map RawRecord.distAlong).Nodup) :
    List.insertionSort rrLE l1 = List.insertionSort rrLE l2 := by
  have hperm : (List.insertionSort rrLE l1).Perm (List.insertionSort rrLE l2) :=
    (List.perm_insertionSort rrLE l1).trans (hp.trans (List.perm_insertionSort rrLE l2).symm)
  have hnd1 : ((List.insertionSort rrLE l1).map RawRecord.distAlong).Nodup :=
    (((List.perm_insertionSort rrLE l1).map RawRecord.distAlong).nodup_iff).mpr hnd
  have hnd2 : ((List.insertionSort rrLE l2).map RawRecord.distAlong).Nodup :=
    ((hperm.map RawRecord.distAlong).nodup_iff).mp hnd1
  have hs1 : (List.insertionSort rrLE l1).Pairwise rrLT := by
    have hle : (List.insertionSort rrLE l1).Pairwise rrLE := List.sorted_insertionSort rrLE l1
    have hne : (List.insertionSort rrLE l1).Pairwise
        (fun a b => a.distAlong ≠ b.distAlong) := by
      rw [List.Nodup, List.pairwise_map] at hnd1
      exact hnd1
    exact (hle.and hne).imp (fun h => lt_of_le_of_ne h.1 h.2)
  have hs2 : (List.insertionSort rrLE l2).Pairwise rrLT := by
    have hle : (List.insertionSort rrLE l2).Pairwise rrLE := List.sorted_insertionSort rrLE l2
    have hne : (List.insertionSort rrLE l2).Pairwise
        (fun a b => a.distAlong ≠ b.distAlong) := by
      rw [List.Nodup, List.pairwise_map] at hnd2
      exact hnd2
    exact (hle.and hne).imp (fun h => lt_of_le_of_ne h.1 h.2)
  exact List.eq_of_perm_of_sorted hperm hs1 hs2

/-- Counterexample to C7 as stated: transposing two records of one group
that share a distance changes the (stably sorted) Profile. -/
theorem C7_counterexample :
    dupRowsA.Perm dupRowsB ∧
      profileFor dupRowsA "A" 2021 ≠ profileFor dupRowsB "A" 2021 := by
  constructor
  · decide
  · decide

/-- C7 amended: if within every (site, year) group the distAlong values
are pairwise distinct, every permutation of the raw records yields the
same Profiles, Difference Series, and Integral Series. -/
theorem C7_permutation_invariance (rows1 rows2 : List RawRecord)
    (hp : rows1.Perm rows2)
    (hnd : ∀ (site : String) (year : Int),
      ((groupFor rows1 site year).map RawRecord.distAlong).Nodup) :
    (∀ (site : String) (year : Int), profileFor rows1 site year = profileFor rows2 site year) ∧
    (∀ site : String, differencesBySite rows1 site = differencesBySite rows2 site) ∧
    (∀ site : String, integralBySite rows1 site = integralBySite rows2 site) := by
  have hprof : ∀ (site : String) (year : Int),
      profileFor rows1 site year = profileFor rows2 site year := by
    intro site year
    rw [profileFor, profileFor]
    exact insertionSort_eq_of_perm (hp.filter _) (hnd site year)
  refine ⟨hprof, ?_, ?_⟩
  · intro site
    rw [differencesBySite, differencesBySite, matchedFor, matchedFor,
      hprof site 2021, hprof site 2024]
  · intro site
    rw [integralBySite, integralBySite, matchedFor, matchedFor,
      hprof site 2021, hprof site 2024]

/-- Witness for C7 amended: transposing two distinct-distance records
leaves the difference series unchanged. -/
theorem C7_witness : differencesBySite permRowsA "A" = differencesBySite permRowsB "A" :=
  (C7_permutation_invariance permRowsA permRowsB (by decide)
      (fun site year => List.Nodup.sublist
        (List.Sublist.map RawRecord.distAlong (List.filter_sublist permRowsA))
        (by decide))).2.1 "A"

end Elev
